import Mathlib

/-!
Shallow embedding of `linera-views/src/common.rs`: byte-string prefix
bounds (`get_upper_bound`, `get_interval`), the write-batch model
(`WriteOperation`, `Batch`, `Batch.simplify`) and the key-derivation
context (`ContextFromDb`).  Byte strings are `List Nat` whose entries are
below 256 (`ValidBytes`); the `BTreeMap`/`BTreeSet` of `simplify` are
embedded as lexicographically sorted lists.
-/

namespace LineraViews

/-- A byte string (`Vec<u8>` in the source); bytes are modelled as `Nat`,
with validity (`< 256`) carried as an explicit hypothesis where it matters. -/
abbrev Bytes := List Nat

/-- Strict byte-wise lexicographic order, mirroring `Ord` on `Vec<u8>`:
compare element-wise; a proper prefix is smaller than its extensions. -/
def lexLt : Bytes → Bytes → Bool
  | [], [] => false
  | [], _ :: _ => true
  | _ :: _, [] => false
  | a :: as, b :: bs => if a < b then true else if b < a then false else lexLt as bs

/-- All bytes of the string are actual `u8` values. -/
def ValidBytes (l : Bytes) : Prop := ∀ b ∈ l, b < 256

/-- `std::ops::Bound<Vec<u8>>` as used by `get_upper_bound` / `get_interval`. -/
inductive Bound where
  | Unbounded : Bound
  | Included (val : Bytes) : Bound
  | Excluded (val : Bytes) : Bound
deriving DecidableEq, Repr

/-- `get_upper_bound` from `common.rs`: the source scans the bytes from the
last position backwards for the first byte below `u8::MAX`, truncates just
after it and increments it; if every byte is `u8::MAX` (or the string is
empty) it returns `Unbounded`.  The structural recursion below computes the
same value: the recursive call handles the suffix first, so the increment
happens at the last position whose byte is below 255. -/
def get_upper_bound : Bytes → Bound
  | [] => .Unbounded
  | a :: as =>
    match get_upper_bound as with
    | .Excluded u => .Excluded (a :: u)
    | _ => if a < 255 then .Excluded [a + 1] else .Unbounded

/-- `get_interval` from `common.rs`. -/
def get_interval (p : Bytes) : Bound × Bound := (.Included p, get_upper_bound p)

/-- Whether key `k` satisfies a lower `Bound` (as `BTreeMap::range` reads it). -/
def bound_sat_lower : Bound → Bytes → Bool
  | .Unbounded, _ => true
  | .Included v, k => !(lexLt k v)
  | .Excluded v, k => lexLt v k

/-- Whether key `k` satisfies an upper `Bound` (as `BTreeMap::range` reads it). -/
def bound_sat_upper : Bound → Bytes → Bool
  | .Unbounded, _ => true
  | .Included v, k => !(lexLt v k)
  | .Excluded v, k => lexLt k v

/-- Membership of key `k` in a `(lower, upper)` bound pair. -/
def inInterval (i : Bound × Bound) (k : Bytes) : Bool :=
  bound_sat_lower i.1 k && bound_sat_upper i.2 k

/-- `WriteOperation` from `common.rs`. -/
inductive WriteOperation where
  | Delete (key : Bytes) : WriteOperation
  | DeletePrefix (p : Bytes) : WriteOperation
  | Put (key : Bytes) (value : Bytes) : WriteOperation
deriving DecidableEq, Repr

/-- `Batch` from `common.rs`: an ordered list of operations. -/
structure Batch where
  operations : List WriteOperation
deriving DecidableEq, Repr

/-- Insertion into the sorted association list embedding
`BTreeMap<Vec<u8>, Option<Vec<u8>>>` (`map_delete_insert` in `simplify`);
an equal key has its value replaced, as `BTreeMap::insert` does. -/
def mapInsert (k : Bytes) (v : Option Bytes) :
    List (Bytes × Option Bytes) → List (Bytes × Option Bytes)
  | [] => [(k, v)]
  | (k', v') :: rest =>
    if lexLt k k' then (k, v) :: (k', v') :: rest
    else if lexLt k' k then (k', v') :: mapInsert k v rest
    else (k, v) :: rest

/-- Insertion into the sorted list embedding `BTreeSet<Vec<u8>>`
(`set_key_prefix` in `simplify`); inserting a present element is a no-op. -/
def setInsert (p : Bytes) : List Bytes → List Bytes
  | [] => [p]
  | q :: rest =>
    if lexLt p q then p :: q :: rest
    else if lexLt q p then q :: setInsert p rest
    else q :: rest

/-- The `DeletePrefix` arm of `simplify` on the map: collect the keys in
`get_interval p` and remove them (embedded as a filter). -/
def mapRemoveRange (p : Bytes) (m : List (Bytes × Option Bytes)) :
    List (Bytes × Option Bytes) :=
  m.filter (fun kv => !(inInterval (get_interval p) kv.1))

/-- The `DeletePrefix` arm of `simplify` on the set: remove the stored
prefixes lying in `get_interval p`. -/
def setRemoveRange (p : Bytes) (s : List Bytes) : List Bytes :=
  s.filter (fun q => !(inInterval (get_interval p) q))

/-- One iteration of the loop in `Batch::simplify`. -/
def simplifyStep :
    List (Bytes × Option Bytes) × List Bytes → WriteOperation →
    List (Bytes × Option Bytes) × List Bytes
  | (m, s), .Delete k => (mapInsert k none m, s)
  | (m, s), .Put k v => (mapInsert k (some v) m, s)
  | (m, s), .DeletePrefix p => (mapRemoveRange p m, setInsert p (setRemoveRange p s))

/-- The loop of `Batch::simplify` over the operation list. -/
def simplifyLoop (ops : List WriteOperation)
    (st : List (Bytes × Option Bytes) × List Bytes) :
    List (Bytes × Option Bytes) × List Bytes :=
  match ops with
  | [] => st
  | op :: rest => simplifyLoop rest (simplifyStep st op)

/-- Render a pending map entry back to a `Put` (for `Some value`) or a
`Delete` (for `None`), as the emission loop of `simplify` does. -/
def toOp (kv : Bytes × Option Bytes) : WriteOperation :=
  match kv.2 with
  | some v => .Put kv.1 v
  | none => .Delete kv.1

/-- The emission phase of `Batch::simplify`: first every pending
`DeletePrefix` (in set order), then every pending `Put`/`Delete`
(in map order). -/
def emitOps (st : List (Bytes × Option Bytes) × List Bytes) : List WriteOperation :=
  st.2.map (fun p => WriteOperation.DeletePrefix p) ++ st.1.map toOp

/-- `Batch::simplify` from `common.rs`. -/
def Batch.simplify (b : Batch) : Batch :=
  ⟨emitOps (simplifyLoop b.operations ([], []))⟩

/-- A store state: a (possibly infinite) map from keys to values. -/
abbrev StoreState := Bytes → Option Bytes

/-- The effect of one write operation on a store: `Put` sets the key,
`Delete` removes it, `DeletePrefix` removes every key under the prefix. -/
def applyOp (s : StoreState) : WriteOperation → StoreState
  | .Delete k => fun q => if q = k then none else s q
  | .Put k v => fun q => if q = k then some v else s q
  | .DeletePrefix p => fun q => if p <+: q then none else s q

/-- Apply a list of operations to a store, in list order. -/
def applyOps (ops : List WriteOperation) (s : StoreState) : StoreState :=
  match ops with
  | [] => s
  | op :: rest => applyOps rest (applyOp s op)

/-- The key (or prefix) of a write operation. -/
def opKey : WriteOperation → Bytes
  | .Delete k => k
  | .DeletePrefix p => p
  | .Put k _ => k

/-- Validity of the key of an operation. -/
def opValid : WriteOperation → Prop
  | .Delete k => ValidBytes k
  | .DeletePrefix p => ValidBytes p
  | .Put k _ => ValidBytes k

instance (l : Bytes) : Decidable (ValidBytes l) :=
  inferInstanceAs (Decidable (∀ b ∈ l, b < 256))

instance (op : WriteOperation) : Decidable (opValid op) :=
  match op with
  | .Delete k => inferInstanceAs (Decidable (ValidBytes k))
  | .DeletePrefix p => inferInstanceAs (Decidable (ValidBytes p))
  | .Put k _ => inferInstanceAs (Decidable (ValidBytes k))

/-- All keys and prefixes of a batch are byte strings. -/
def BatchValid (b : Batch) : Prop := ∀ op ∈ b.operations, opValid op

instance (b : Batch) : Decidable (BatchValid b) :=
  inferInstanceAs (Decidable (∀ op ∈ b.operations, opValid op))

/-- The `KeyValueOperations` trait of `common.rs`: the backend's operations,
embedded as pure functions into `Except` (the `async` wrapper and the
backend's own behaviour are abstract; only the interface shape matters
here).  `Err` is the implementor's error type. -/
structure KeyValueOperations (Err : Type) where
  read_key_bytes : Bytes → Except Err (Option Bytes)
  find_keys_by_prefix : Bytes → Except Err (List Bytes)
  find_key_values_by_prefix : Bytes → Except Err (List (Bytes × Bytes))
  write_batch : Batch → Except Err Unit

/-- The provided method `KeyValueOperations::read_key`: read the bytes and
deserialize them if present.  The `bcs` deserializer for the target type is
an external dependency and is passed in as `deser`. -/
def KeyValueOperations.read_key {Err Item : Type} (db : KeyValueOperations Err)
    (deser : Bytes → Except Err Item) (key : Bytes) : Except Err (Option Item) :=
  match db.read_key_bytes key with
  | .error e => .error e
  | .ok none => .ok none
  | .ok (some bytes) =>
    match deser bytes with
    | .error e => .error e
    | .ok v => .ok (some v)

/-- `ContextFromDb` from `common.rs`. -/
structure ContextFromDb (E Err : Type) where
  db : KeyValueOperations Err
  base_key : Bytes
  extra : E

/-- The result of a key-derivation method: a key, a recoverable
serialization error, or the process aborting on a failed `assert!`. -/
inductive KeyResult (Err : Type) where
  | ok (key : Bytes) : KeyResult Err
  | err (e : Err) : KeyResult Err
  | panicked : KeyResult Err
deriving DecidableEq, Repr

/-- `ContextFromDb::base_tag`: `base_key` extended by the tag byte. -/
def ContextFromDb.base_tag {E Err : Type} (c : ContextFromDb E Err) (tag : Nat) :
    Bytes :=
  c.base_key ++ [tag]

/-- `ContextFromDb::base_tag_index`: `base_key`, then the tag byte, then the
index bytes. -/
def ContextFromDb.base_tag_index {E Err : Type} (c : ContextFromDb E Err)
    (tag : Nat) (index : Bytes) : Bytes :=
  c.base_key ++ [tag] ++ index

/-- `ContextFromDb::derive_key`: serialize the index onto a copy of
`base_key` (a failure is a recoverable error), then `assert!` that the key
is strictly longer than `base_key` — a failed assertion aborts.  The `bcs`
serialization of the index is external to this file, so an index is
represented by its serialization outcome `encoded_index`. -/
def ContextFromDb.derive_key {E Err : Type} (c : ContextFromDb E Err)
    (encoded_index : Except Err Bytes) : KeyResult Err :=
  match encoded_index with
  | .error e => .err e
  | .ok bytes =>
    if c.base_key.length < (c.base_key ++ bytes).length then .ok (c.base_key ++ bytes)
    else .panicked

/-- `ContextFromDb::derive_tag_key`: `base_key`, the tag byte, then the
serialized index; no assertion is performed. -/
def ContextFromDb.derive_tag_key {E Err : Type} (c : ContextFromDb E Err)
    (tag : Nat) (encoded_index : Except Err Bytes) : KeyResult Err :=
  match encoded_index with
  | .error e => .err e
  | .ok bytes => .ok (c.base_key ++ [tag] ++ bytes)

/-- `ContextFromDb::derive_short_key`: the serialized index alone. -/
def ContextFromDb.derive_short_key {E Err : Type} (_c : ContextFromDb E Err)
    (encoded_index : Except Err Bytes) : KeyResult Err :=
  match encoded_index with
  | .error e => .err e
  | .ok bytes => .ok bytes

/-- `ContextFromDb::derive_key_bytes`: raw concatenation. -/
def ContextFromDb.derive_key_bytes {E Err : Type} (c : ContextFromDb E Err)
    (index : Bytes) : Bytes :=
  c.base_key ++ index

/-- `ContextFromDb::read_key_bytes`: delegate to the backend. -/
def ContextFromDb.read_key_bytes {E Err : Type} (c : ContextFromDb E Err)
    (key : Bytes) : Except Err (Option Bytes) :=
  c.db.read_key_bytes key

/-- `ContextFromDb::read_key`: delegate to the backend's `read_key`. -/
def ContextFromDb.read_key {E Err Item : Type} (c : ContextFromDb E Err)
    (deser : Bytes → Except Err Item) (key : Bytes) : Except Err (Option Item) :=
  c.db.read_key deser key

/-- `ContextFromDb::find_keys_by_prefix`: delegate to the backend. -/
def ContextFromDb.find_keys_by_prefix {E Err : Type} (c : ContextFromDb E Err)
    (p : Bytes) : Except Err (List Bytes) :=
  c.db.find_keys_by_prefix p

/-- `ContextFromDb::find_key_values_by_prefix`: delegate to the backend. -/
def ContextFromDb.find_key_values_by_prefix {E Err : Type} (c : ContextFromDb E Err)
    (p : Bytes) : Except Err (List (Bytes × Bytes)) :=
  c.db.find_key_values_by_prefix p

/-- `ContextFromDb::write_batch`: delegate to the backend
(`self.db.write_batch(batch).await?; Ok(())`). -/
def ContextFromDb.write_batch {E Err : Type} (c : ContextFromDb E Err)
    (batch : Batch) : Except Err Unit :=
  match c.db.write_batch batch with
  | .error e => .error e
  | .ok _ => .ok ()

/-- `ContextFromDb::clone_with_base_key`. -/
def ContextFromDb.clone_with_base_key {E Err : Type} (c : ContextFromDb E Err)
    (base_key : Bytes) : ContextFromDb E Err :=
  { db := c.db, base_key := base_key, extra := c.extra }

/-- A trivial backend, used to build concrete contexts in witnesses. -/
def trivialDb : KeyValueOperations Unit where
  read_key_bytes := fun _ => .ok none
  find_keys_by_prefix := fun _ => .ok []
  find_key_values_by_prefix := fun _ => .ok []
  write_batch := fun _ => .ok ()

/-- Association-list lookup in the embedded `BTreeMap`. -/
def mapLookup (k : Bytes) : List (Bytes × Option Bytes) → Option (Option Bytes)
  | [] => none
  | (k', v) :: rest => if k = k' then some v else mapLookup k rest

/-- The store denoted by the pending map laid over a base store: a pending
`Some value` sets the key, a pending `None` deletes it, an absent key falls
through to the base store. -/
def mapApply (m : List (Bytes × Option Bytes)) (s : StoreState) : StoreState :=
  fun k =>
    match mapLookup k m with
    | some (some v) => some v
    | some none => none
    | none => s k

/-- The store denoted by the pending prefix-delete set laid over a base
store: any key under one of the prefixes is absent. -/
def setApply (ss : List Bytes) (s : StoreState) : StoreState :=
  fun k => if ∃ p ∈ ss, p <+: k then none else s k

/-- Select the prefix of a `DeletePrefix` operation. -/
def dpSel : WriteOperation → Option Bytes
  | .DeletePrefix q => some q
  | _ => none

/-- The prefixes of the `DeletePrefix` operations of a batch, in order. -/
def dpPrefixes (b : Batch) : List Bytes :=
  b.operations.filterMap dpSel

/-- The embedded `BTreeMap` invariant: keys strictly ascending. -/
def MapSorted (m : List (Bytes × Option Bytes)) : Prop :=
  m.Pairwise fun a b => lexLt a.1 b.1 = true

/-- The embedded `BTreeSet` invariant: elements strictly ascending. -/
def SetSorted (ss : List Bytes) : Prop :=
  ss.Pairwise fun a b => lexLt a b = true

/-- All keys of the pending map are byte strings. -/
def MapValid (m : List (Bytes × Option Bytes)) : Prop :=
  ∀ kv ∈ m, ValidBytes kv.1

/-- All elements of the pending prefix set are byte strings. -/
def SetValid (ss : List Bytes) : Prop :=
  ∀ q ∈ ss, ValidBytes q

theorem lexLt_nil_right : ∀ l : Bytes, lexLt l [] = false
  | [] => rfl
  | _ :: _ => rfl

theorem lexLt_cons_cons (a b : Nat) (as bs : Bytes) :
    lexLt (a :: as) (b :: bs) =
      if a < b then true else if b < a then false else lexLt as bs :=
  rfl

theorem lexLt_irrefl : ∀ l : Bytes, lexLt l l = false
  | [] => rfl
  | a :: as => by
    rw [lexLt_cons_cons, if_neg (Nat.lt_irrefl a), if_neg (Nat.lt_irrefl a)]
    exact lexLt_irrefl as

theorem eq_of_not_lexLt : ∀ {a b : Bytes}, lexLt a b = false → lexLt b a = false → a = b
  | [], [], _, _ => rfl
  | [], _ :: _, h, _ => by simp [lexLt] at h
  | _ :: _, [], _, h => by simp [lexLt] at h
  | x :: xs, y :: ys, h1, h2 => by
    rw [lexLt_cons_cons] at h1 h2
    by_cases hxy : x < y
    · rw [if_pos hxy] at h1; simp at h1
    · by_cases hyx : y < x
      · rw [if_pos hyx] at h2; simp at h2
      · rw [if_neg hxy, if_neg hyx] at h1
        rw [if_neg hyx, if_neg hxy] at h2
        have he : x = y := Nat.le_antisymm (Nat.le_of_not_lt hyx) (Nat.le_of_not_lt hxy)
        subst he
        exact congrArg (x :: ·) (eq_of_not_lexLt h1 h2)

theorem lexLt_asymm : ∀ {a b : Bytes}, lexLt a b = true → lexLt b a = false
  | [], [], h => by simp [lexLt] at h
  | [], _ :: _, _ => rfl
  | _ :: _, [], h => by simp [lexLt] at h
  | x :: xs, y :: ys, h => by
    rw [lexLt_cons_cons] at h ⊢
    by_cases hxy : x < y
    · rw [if_neg (Nat.lt_asymm hxy), if_pos hxy]
    · by_cases hyx : y < x
      · rw [if_neg hxy, if_pos hyx] at h; simp at h
      · rw [if_neg hxy, if_neg hyx] at h
        rw [if_neg hyx, if_neg hxy]
        exact lexLt_asymm h

theorem lexLt_trans : ∀ {a b c : Bytes}, lexLt a b = true → lexLt b c = true → lexLt a c = true
  | [], [], _, h1, _ => by simp [lexLt] at h1
  | [], _ :: _, [], _, h2 => by rw [lexLt_nil_right] at h2; simp at h2
  | [], _ :: _, _ :: _, _, _ => rfl
  | _ :: _, [], _, h1, _ => by rw [lexLt_nil_right] at h1; simp at h1
  | _ :: _, _ :: _, [], _, h2 => by rw [lexLt_nil_right] at h2; simp at h2
  | x :: xs, y :: ys, z :: zs, h1, h2 => by
    rw [lexLt_cons_cons] at h1 h2 ⊢
    by_cases hxy : x < y
    · by_cases hyz : y < z
      · rw [if_pos (Nat.lt_trans hxy hyz)]
      · rw [if_neg hyz] at h2
        by_cases hzy : z < y
        · rw [if_pos hzy] at h2; simp at h2
        · have he : y = z := Nat.le_antisymm (Nat.le_of_not_lt hzy) (Nat.le_of_not_lt hyz)
          subst he
          rw [if_pos hxy]
    · by_cases hyx : y < x
      · rw [if_neg hxy, if_pos hyx] at h1; simp at h1
      · rw [if_neg hxy, if_neg hyx] at h1
        have he : x = y := Nat.le_antisymm (Nat.le_of_not_lt hyx) (Nat.le_of_not_lt hxy)
        subst he
        by_cases hxz : x < z
        · rw [if_pos hxz]
        · rw [if_neg hxz] at h2 ⊢
          by_cases hzx : z < x
          · rw [if_pos hzx] at h2; simp at h2
          · rw [if_neg hzx] at h2 ⊢
            exact lexLt_trans h1 h2

theorem lexLt_append_self : ∀ p t : Bytes, lexLt (p ++ t) p = false
  | [], t => lexLt_nil_right t
  | a :: as, t => by
    rw [List.cons_append, lexLt_cons_cons, if_neg (Nat.lt_irrefl a),
      if_neg (Nat.lt_irrefl a)]
    exact lexLt_append_self as t

theorem gub_not_included : ∀ p v : Bytes, get_upper_bound p ≠ .Included v
  | [], v => by simp [get_upper_bound]
  | a :: as, v => by
    simp only [get_upper_bound]
    cases hgub : get_upper_bound as with
    | Excluded u => simp
    | Unbounded => dsimp only; split <;> simp
    | Included w => dsimp only; split <;> simp

theorem lexLt_append_upper :
    ∀ (p t u : Bytes), get_upper_bound p = .Excluded u → lexLt (p ++ t) u = true
  | [], _, _, h => by simp [get_upper_bound] at h
  | a :: as, t, u, h => by
    simp only [get_upper_bound] at h
    cases hgub : get_upper_bound as with
    | Excluded u' =>
      rw [hgub] at h
      simp only [Bound.Excluded.injEq] at h
      subst h
      rw [List.cons_append, lexLt_cons_cons, if_neg (Nat.lt_irrefl a),
        if_neg (Nat.lt_irrefl a)]
      exact lexLt_append_upper as t u' hgub
    | Unbounded =>
      rw [hgub] at h
      dsimp only at h
      by_cases ha : a < 255
      · rw [if_pos ha] at h
        simp only [Bound.Excluded.injEq] at h
        subst h
        rw [List.cons_append, lexLt_cons_cons, if_pos (Nat.lt_succ_self a)]
      · rw [if_neg ha] at h; simp at h
    | Included w =>
      rw [hgub] at h
      dsimp only at h
      by_cases ha : a < 255
      · rw [if_pos ha] at h
        simp only [Bound.Excluded.injEq] at h
        subst h
        rw [List.cons_append, lexLt_cons_cons, if_pos (Nat.lt_succ_self a)]
      · rw [if_neg ha] at h; simp at h

theorem inInterval_of_isPrefix {p k : Bytes} (h : p <+: k) :
    inInterval (get_interval p) k = true := by
  obtain ⟨t, rfl⟩ := h
  simp only [inInterval, get_interval, bound_sat_lower, Bool.and_eq_true]
  refine ⟨by simp [lexLt_append_self], ?_⟩
  cases hgub : get_upper_bound p with
  | Unbounded => rfl
  | Included v => exact absurd hgub (gub_not_included p v)
  | Excluded u => exact lexLt_append_upper p t u hgub

theorem isPrefix_of_bounds : ∀ {p k : Bytes}, ValidBytes p → ValidBytes k →
    lexLt k p = false → bound_sat_upper (get_upper_bound p) k = true → p <+: k
  | [], _, _, _, _, _ => List.nil_prefix
  | _ :: _, [], _, _, h1, _ => by simp [lexLt] at h1
  | a :: as, b :: bs, hp, hk, h1, h2 => by
    have hpa : a < 256 := hp a (List.mem_cons_self a as)
    have hpas : ValidBytes as := fun x hx => hp x (List.mem_cons_of_mem a hx)
    have hkb : b < 256 := hk b (List.mem_cons_self b bs)
    have hkbs : ValidBytes bs := fun x hx => hk x (List.mem_cons_of_mem b hx)
    rw [lexLt_cons_cons] at h1
    by_cases hba : b < a
    · rw [if_pos hba] at h1; simp at h1
    · rw [if_neg hba] at h1
      cases hgub : get_upper_bound as with
      | Excluded u' =>
        have hgubp : get_upper_bound (a :: as) = .Excluded (a :: u') := by
          simp [get_upper_bound, hgub]
        rw [hgubp] at h2
        have h2' : lexLt (b :: bs) (a :: u') = true := h2
        rw [lexLt_cons_cons] at h2'
        by_cases hab : a < b
        · rw [if_neg (Nat.lt_asymm hab), if_pos hab] at h2'; simp at h2'
        · have he : a = b := Nat.le_antisymm (Nat.le_of_not_lt hba) (Nat.le_of_not_lt hab)
          subst he
          rw [if_neg (Nat.lt_irrefl a), if_neg (Nat.lt_irrefl a)] at h2'
          rw [if_neg (Nat.lt_irrefl a)] at h1
          have ih := isPrefix_of_bounds hpas hkbs h1 (by rw [hgub]; exact h2')
          exact List.cons_prefix_cons.mpr ⟨rfl, ih⟩
      | Unbounded =>
        have hgubp : get_upper_bound (a :: as) =
            if a < 255 then Bound.Excluded [a + 1] else .Unbounded := by
          simp [get_upper_bound, hgub]
        by_cases ha : a < 255
        · rw [hgubp, if_pos ha] at h2
          have h2' : lexLt (b :: bs) [a + 1] = true := h2
          rw [lexLt_cons_cons] at h2'
          by_cases hb : b < a + 1
          · have he : a = b := by omega
            subst he
            rw [if_neg (Nat.lt_irrefl a)] at h1
            have ih := isPrefix_of_bounds hpas hkbs h1 (by rw [hgub]; rfl)
            exact List.cons_prefix_cons.mpr ⟨rfl, ih⟩
          · rw [if_neg hb] at h2'
            by_cases hab1 : a + 1 < b
            · rw [if_pos hab1] at h2'; simp at h2'
            · rw [if_neg hab1, lexLt_nil_right bs] at h2'; simp at h2'
        · have he : a = b := by omega
          subst he
          rw [if_neg (Nat.lt_irrefl a)] at h1
          have ih := isPrefix_of_bounds hpas hkbs h1 (by rw [hgub]; rfl)
          exact List.cons_prefix_cons.mpr ⟨rfl, ih⟩
      | Included w => exact absurd hgub (gub_not_included as w)

theorem gub_unbounded_iff : ∀ {p : Bytes}, ValidBytes p →
    (get_upper_bound p = .Unbounded ↔ ∀ b ∈ p, b = 255)
  | [], _ => by simp [get_upper_bound]
  | a :: as, hp => by
    have hpa : a < 256 := hp a (List.mem_cons_self a as)
    have hpas : ValidBytes as := fun x hx => hp x (List.mem_cons_of_mem a hx)
    have ih := gub_unbounded_iff hpas
    cases hgub : get_upper_bound as with
    | Excluded u' =>
      have hgubp : get_upper_bound (a :: as) = .Excluded (a :: u') := by
        simp [get_upper_bound, hgub]
      rw [hgubp]
      constructor
      · intro h; simp at h
      · intro h
        have : get_upper_bound as = .Unbounded :=
          ih.mpr fun x hx => h x (List.mem_cons_of_mem a hx)
        rw [hgub] at this; simp at this
    | Unbounded =>
      have hgubp : get_upper_bound (a :: as) =
          if a < 255 then Bound.Excluded [a + 1] else .Unbounded := by
        simp [get_upper_bound, hgub]
      rw [hgubp]
      by_cases ha : a < 255
      · rw [if_pos ha]
        constructor
        · intro h; simp at h
        · intro h
          have := h a (List.mem_cons_self a as)
          omega
      · rw [if_neg ha]
        constructor
        · intro _ b hb
          rcases List.mem_cons.mp hb with rfl | hb'
          · omega
          · exact (ih.mp hgub) b hb'
        · intro _; rfl
    | Included w => exact absurd hgub (gub_not_included as w)

theorem gub_last_below : ∀ (l₁ : Bytes) (x : Nat) (l₂ : Bytes), x < 255 →
    (∀ y ∈ l₂, y = 255) → get_upper_bound (l₁ ++ x :: l₂) = .Excluded (l₁ ++ [x + 1])
  | [], x, l₂, hx, h255 => by
    have hv : ValidBytes l₂ := fun y hy => by rw [h255 y hy]; omega
    have hu : get_upper_bound l₂ = .Unbounded := (gub_unbounded_iff hv).mpr h255
    simp [get_upper_bound, hu, hx]
  | a :: l₁, x, l₂, hx, h255 => by
    have ih := gub_last_below l₁ x l₂ hx h255
    simp [get_upper_bound, ih]

/-- C1: for byte strings `p` and `k`, `k` has `p` as a prefix exactly when
`k` lies in the half-open interval `[Included p, get_upper_bound p)`;
`get_upper_bound` returns `Unbounded` exactly when every byte of `p` is 255
(including the empty string), and otherwise returns `Excluded` of `p`
truncated just after its last byte below 255 with that byte incremented. -/
theorem get_upper_bound_spec (p k : Bytes) (hp : ValidBytes p) (hk : ValidBytes k) :
    (p <+: k ↔ inInterval (get_interval p) k = true)
    ∧ (get_upper_bound p = .Unbounded ↔ ∀ b ∈ p, b = 255)
    ∧ (∀ l₁ x l₂, p = l₁ ++ x :: l₂ → x < 255 → (∀ y ∈ l₂, y = 255) →
        get_upper_bound p = .Excluded (l₁ ++ [x + 1])) := by
  refine ⟨⟨fun h => inInterval_of_isPrefix h, fun h => ?_⟩, gub_unbounded_iff hp, ?_⟩
  · simp only [inInterval, get_interval, Bool.and_eq_true] at h
    refine isPrefix_of_bounds hp hk ?_ h.2
    have := h.1
    simp only [bound_sat_lower, Bool.not_eq_eq_eq_not, Bool.not_true] at this
    exact this
  · rintro l₁ x l₂ rfl hx h255
    exact gub_last_below l₁ x l₂ hx h255

/-- Witness for C1 at `p = [5, 255]`, `k = [5, 255, 7]`. -/
theorem get_upper_bound_spec_witness :
    (([5, 255] : Bytes) <+: [5, 255, 7] ↔
      inInterval (get_interval [5, 255]) [5, 255, 7] = true)
    ∧ get_upper_bound [5, 255] = .Excluded [6] := by
  have h := get_upper_bound_spec [5, 255] [5, 255, 7] (by decide) (by decide)
  exact ⟨h.1, h.2.2 [] 5 [255] rfl (by decide) (by decide)⟩

theorem isPrefix_of_inInterval {p k : Bytes} (hp : ValidBytes p) (hk : ValidBytes k)
    (h : inInterval (get_interval p) k = true) : p <+: k := by
  simp only [inInterval, get_interval, Bool.and_eq_true] at h
  refine isPrefix_of_bounds hp hk ?_ h.2
  have h1 := h.1
  simp only [bound_sat_lower, Bool.not_eq_eq_eq_not, Bool.not_true] at h1
  exact h1

theorem ne_of_lexLt {x y : Bytes} (h : lexLt x y = true) : x ≠ y := by
  rintro rfl
  rw [lexLt_irrefl] at h
  simp at h

theorem mapLookup_mapInsert (k' k : Bytes) (v : Option Bytes) :
    ∀ m, mapLookup k' (mapInsert k v m) = if k' = k then some v else mapLookup k' m
  | [] => by simp [mapInsert, mapLookup]
  | (kh, vh) :: rest => by
    simp only [mapInsert]
    by_cases h1 : lexLt k kh = true
    · rw [if_pos h1]; rfl
    · rw [if_neg h1]
      by_cases h2 : lexLt kh k = true
      · rw [if_pos h2]
        have hne : kh ≠ k := fun he => by rw [he, lexLt_irrefl] at h2; simp at h2
        simp only [mapLookup, mapLookup_mapInsert k' k v rest]
        by_cases hk1 : k' = kh <;> by_cases hk2 : k' = k <;> simp_all
      · have he : k = kh := eq_of_not_lexLt (by simpa using h1) (by simpa using h2)
        subst he
        rw [if_neg h2]
        simp only [mapLookup]
        by_cases hk1 : k' = k <;> simp [hk1]

theorem mapLookup_mapRemoveRange (p k : Bytes) :
    ∀ m, mapLookup k (mapRemoveRange p m) =
      if inInterval (get_interval p) k = true then none else mapLookup k m
  | [] => by
    simp only [mapRemoveRange, List.filter_nil, mapLookup]
    split <;> rfl
  | (kh, vh) :: rest => by
    have ih := mapLookup_mapRemoveRange p k rest
    simp only [mapRemoveRange, List.filter_cons] at ih ⊢
    by_cases hin : inInterval (get_interval p) kh = true
    · rw [if_neg (by simp [hin])]
      rw [ih]
      by_cases hik : inInterval (get_interval p) k = true
      · rw [if_pos hik, if_pos hik]
      · rw [if_neg hik, if_neg hik]
        have hk : k ≠ kh := by
          rintro rfl
          rw [hin] at hik
          exact hik rfl
        simp [mapLookup, hk]
    · rw [if_pos (by simp [hin])]
      simp only [mapLookup]
      by_cases hk : k = kh
      · subst hk
        rw [if_pos rfl]
        rw [if_neg (by simpa using hin)]
        simp [mapLookup]
      · rw [if_neg hk, ih]
        by_cases hik : inInterval (get_interval p) k = true
        · rw [if_pos hik, if_pos hik]
        · rw [if_neg hik, if_neg hik]
          simp [mapLookup, hk]

theorem mapLookup_eq_none_of_not_valid :
    ∀ {m}, MapValid m → ∀ {q : Bytes}, ¬ ValidBytes q → mapLookup q m = none
  | [], _, _, _ => rfl
  | (kh, vh) :: rest, hm, q, hq => by
    simp only [mapLookup]
    by_cases hk : q = kh
    · subst hk
      exact absurd (hm (q, vh) (List.mem_cons_self _ _)) hq
    · rw [if_neg hk]
      exact mapLookup_eq_none_of_not_valid (fun x hx => hm x (List.mem_cons_of_mem _ hx)) hq

theorem mem_setInsert (q p : Bytes) : ∀ ss, q ∈ setInsert p ss ↔ q = p ∨ q ∈ ss
  | [] => by simp [setInsert]
  | r :: rest => by
    simp only [setInsert]
    by_cases h1 : lexLt p r = true
    · rw [if_pos h1]
      simp [List.mem_cons]
    · rw [if_neg h1]
      by_cases h2 : lexLt r p = true
      · rw [if_pos h2]
        simp only [List.mem_cons, mem_setInsert q p rest]
        tauto
      · have he : r = p := eq_of_not_lexLt (by simpa using h2) (by simpa using h1)
        subst he
        rw [if_neg h2]
        simp [List.mem_cons]

theorem mem_of_mem_mapInsert {x : Bytes × Option Bytes} {k : Bytes} {v : Option Bytes} :
    ∀ {m}, x ∈ mapInsert k v m → x = (k, v) ∨ x ∈ m
  | [], h => by simp [mapInsert] at h; exact Or.inl h
  | (kh, vh) :: rest, h => by
    simp only [mapInsert] at h
    by_cases h1 : lexLt k kh = true
    · rw [if_pos h1] at h
      rcases List.mem_cons.mp h with rfl | h'
      · exact Or.inl rfl
      · exact Or.inr h'
    · rw [if_neg h1] at h
      by_cases h2 : lexLt kh k = true
      · rw [if_pos h2] at h
        rcases List.mem_cons.mp h with rfl | h'
        · exact Or.inr (List.mem_cons_self _ _)
        · rcases mem_of_mem_mapInsert h' with h'' | h''
          · exact Or.inl h''
          · exact Or.inr (List.mem_cons_of_mem _ h'')
      · rw [if_neg h2] at h
        rcases List.mem_cons.mp h with rfl | h'
        · exact Or.inl rfl
        · exact Or.inr (List.mem_cons_of_mem _ h')

theorem mapValid_mapInsert {k : Bytes} {v : Option Bytes} {m}
    (hk : ValidBytes k) (hm : MapValid m) : MapValid (mapInsert k v m) := by
  intro x hx
  rcases mem_of_mem_mapInsert hx with rfl | h
  · exact hk
  · exact hm x h

theorem setValid_setInsert {p : Bytes} {ss} (hp : ValidBytes p) (hs : SetValid ss) :
    SetValid (setInsert p ss) := by
  intro q hq
  rcases (mem_setInsert q p ss).mp hq with rfl | h
  · exact hp
  · exact hs q h

theorem simplifyStep_valid {m ss op} (hm : MapValid m) (hs : SetValid ss)
    (hop : opValid op) :
    MapValid (simplifyStep (m, ss) op).1 ∧ SetValid (simplifyStep (m, ss) op).2 := by
  cases op with
  | Delete k => exact ⟨mapValid_mapInsert hop hm, hs⟩
  | Put k v => exact ⟨mapValid_mapInsert hop hm, hs⟩
  | DeletePrefix p =>
    refine ⟨?_, ?_⟩
    · intro x hx
      exact hm x (List.mem_of_mem_filter hx)
    · refine setValid_setInsert hop ?_
      intro q hq
      exact hs q (List.mem_of_mem_filter hq)

theorem setApply_insert_erase {p : Bytes} {ss : List Bytes} (hp : ValidBytes p)
    (hs : SetValid ss) (s : StoreState) (q : Bytes) (hq : ¬ p <+: q) :
    setApply (setInsert p (setRemoveRange p ss)) s q = setApply ss s q := by
  simp only [setApply]
  have hiff : (∃ r ∈ setInsert p (setRemoveRange p ss), r <+: q) ↔ ∃ r ∈ ss, r <+: q := by
    constructor
    · rintro ⟨r, hr, hrq⟩
      rcases (mem_setInsert r p _).mp hr with rfl | hr'
      · exact absurd hrq hq
      · exact ⟨r, List.mem_of_mem_filter hr', hrq⟩
    · rintro ⟨r, hr, hrq⟩
      by_cases hrem : inInterval (get_interval p) r = true
      · have hpr : p <+: r := isPrefix_of_inInterval hp (hs r hr) hrem
        exact absurd (hpr.trans hrq) hq
      · refine ⟨r, (mem_setInsert r p _).mpr (Or.inr ?_), hrq⟩
        refine List.mem_filter.mpr ⟨hr, ?_⟩
        simp [hrem]
  rw [if_congr hiff rfl rfl]

theorem simplifyStep_sem {m ss} (op : WriteOperation) (hm : MapValid m)
    (hs : SetValid ss) (hop : opValid op) (s : StoreState) :
    mapApply (simplifyStep (m, ss) op).1 (setApply (simplifyStep (m, ss) op).2 s)
      = applyOp (mapApply m (setApply ss s)) op := by
  funext q
  cases op with
  | Delete k =>
    simp only [simplifyStep, applyOp, mapApply, mapLookup_mapInsert]
    by_cases hq : q = k <;> simp [hq]
  | Put k v =>
    simp only [simplifyStep, applyOp, mapApply, mapLookup_mapInsert]
    by_cases hq : q = k <;> simp [hq]
  | DeletePrefix p =>
    have hp : ValidBytes p := hop
    simp only [simplifyStep, applyOp]
    by_cases hq : p <+: q
    · rw [if_pos hq]
      have hin : inInterval (get_interval p) q = true := inInterval_of_isPrefix hq
      have hl : mapLookup q (mapRemoveRange p m) = none := by
        rw [mapLookup_mapRemoveRange p q m, if_pos hin]
      simp only [mapApply, hl]
      simp only [setApply]
      rw [if_pos ⟨p, (mem_setInsert p p _).mpr (Or.inl rfl), hq⟩]
    · rw [if_neg hq]
      have hsetq := setApply_insert_erase hp hs s q hq
      simp only [mapApply]
      rw [mapLookup_mapRemoveRange p q m]
      by_cases hin : inInterval (get_interval p) q = true
      · have hqinv : ¬ ValidBytes q := fun hv => hq (isPrefix_of_inInterval hp hv hin)
        have hl : mapLookup q m = none := mapLookup_eq_none_of_not_valid hm hqinv
        rw [if_pos hin, hl]
        exact hsetq
      · rw [if_neg hin]
        cases hl : mapLookup q m with
        | none => exact hsetq
        | some o => cases o <;> rfl

theorem simplifyLoop_sem : ∀ (ops : List WriteOperation) (m : List (Bytes × Option Bytes))
    (ss : List Bytes), (∀ op ∈ ops, opValid op) → MapValid m → SetValid ss →
    ∀ s : StoreState,
    mapApply (simplifyLoop ops (m, ss)).1 (setApply (simplifyLoop ops (m, ss)).2 s)
      = applyOps ops (mapApply m (setApply ss s))
  | [], _, _, _, _, _, _ => rfl
  | op :: rest, m, ss, hops, hm, hs, s => by
    have hop : opValid op := hops op (List.mem_cons_self _ _)
    have hrest : ∀ o ∈ rest, opValid o := fun o ho => hops o (List.mem_cons_of_mem _ ho)
    have hv := simplifyStep_valid hm hs hop
    simp only [simplifyLoop, applyOps]
    rw [← simplifyStep_sem op hm hs hop s]
    exact simplifyLoop_sem rest (simplifyStep (m, ss) op).1 (simplifyStep (m, ss) op).2
      hrest hv.1 hv.2 s

theorem applyOps_append (l1 l2 : List WriteOperation) :
    ∀ s : StoreState, applyOps (l1 ++ l2) s = applyOps l2 (applyOps l1 s) := by
  induction l1 with
  | nil => intro s; rfl
  | cons op rest ih => intro s; exact ih (applyOp s op)

theorem applyOps_dp : ∀ (ss : List Bytes) (s : StoreState),
    applyOps (ss.map fun p => WriteOperation.DeletePrefix p) s = setApply ss s
  | [], s => by
    funext q
    simp [applyOps, setApply]
  | p :: rest, s => by
    have ih := applyOps_dp rest (applyOp s (.DeletePrefix p))
    simp only [List.map_cons, applyOps, ih]
    funext q
    simp only [setApply, applyOp]
    by_cases h1 : p <+: q
    · by_cases h2 : ∃ r ∈ rest, r <+: q
      · rw [if_pos h2, if_pos ⟨p, List.mem_cons_self p rest, h1⟩]
      · rw [if_neg h2, if_pos h1, if_pos ⟨p, List.mem_cons_self p rest, h1⟩]
    · by_cases h2 : ∃ r ∈ rest, r <+: q
      · obtain ⟨r, hr, hrq⟩ := h2
        rw [if_pos ⟨r, hr, hrq⟩, if_pos ⟨r, List.mem_cons_of_mem p hr, hrq⟩]
      · rw [if_neg h2, if_neg h1]
        have h3 : ¬ ∃ r ∈ p :: rest, r <+: q := by
          rintro ⟨r, hr, hrq⟩
          rcases List.mem_cons.mp hr with rfl | hr'
          · exact h1 hrq
          · exact h2 ⟨r, hr', hrq⟩
        rw [if_neg h3]

theorem mapLookup_eq_none_of_no_key :
    ∀ {m} {k : Bytes}, (∀ x ∈ m, k ≠ x.1) → mapLookup k m = none
  | [], _, _ => rfl
  | (kh, vh) :: rest, k, h => by
    simp only [mapLookup]
    rw [if_neg (h (kh, vh) (List.mem_cons_self _ _))]
    exact mapLookup_eq_none_of_no_key fun x hx => h x (List.mem_cons_of_mem _ hx)

theorem applyOps_pd : ∀ (m : List (Bytes × Option Bytes)),
    m.Pairwise (fun a b => a.1 ≠ b.1) → ∀ s : StoreState,
    applyOps (m.map toOp) s = mapApply m s
  | [], _, s => by
    funext q
    simp [applyOps, mapApply, mapLookup]
  | (k, eff) :: rest, hdist, s => by
    have hd : ∀ x ∈ rest, k ≠ x.1 := by
      intro x hx
      exact (List.pairwise_cons.mp hdist).1 x hx
    have ih := applyOps_pd rest (List.pairwise_cons.mp hdist).2 (applyOp s (toOp (k, eff)))
    simp only [List.map_cons, applyOps, ih]
    funext q
    simp only [mapApply, mapLookup]
    by_cases hq : q = k
    · subst hq
      rw [if_pos rfl]
      have hl : mapLookup q rest = none := mapLookup_eq_none_of_no_key hd
      cases eff <;> simp [hl, toOp, applyOp]
    · rw [if_neg hq]
      cases hl : mapLookup q rest with
      | some o => cases o <;> simp [hl]
      | none => cases eff <;> simp [hl, toOp, applyOp, hq]

theorem emit_sem (st : List (Bytes × Option Bytes) × List Bytes)
    (hdist : st.1.Pairwise fun a b => a.1 ≠ b.1) (s : StoreState) :
    applyOps (emitOps st) s = mapApply st.1 (setApply st.2 s) := by
  obtain ⟨m, ss⟩ := st
  rw [emitOps, applyOps_append, applyOps_dp, applyOps_pd m hdist]

theorem base_store (s : StoreState) : mapApply [] (setApply [] s) = s := by
  funext q
  simp [mapApply, mapLookup, setApply]

theorem mapInsert_sorted {k : Bytes} {v : Option Bytes} :
    ∀ {m}, MapSorted m → MapSorted (mapInsert k v m)
  | [], _ => by simp [mapInsert, MapSorted]
  | (kh, vh) :: rest, hm => by
    have hh := (List.pairwise_cons.mp hm).1
    have ht := (List.pairwise_cons.mp hm).2
    simp only [mapInsert]
    by_cases h1 : lexLt k kh = true
    · rw [if_pos h1]
      refine List.pairwise_cons.mpr ⟨?_, hm⟩
      intro x hx
      rcases List.mem_cons.mp hx with rfl | hx'
      · exact h1
      · exact lexLt_trans h1 (hh x hx')
    · rw [if_neg h1]
      by_cases h2 : lexLt kh k = true
      · rw [if_pos h2]
        refine List.pairwise_cons.mpr ⟨?_, mapInsert_sorted ht⟩
        intro x hx
        rcases mem_of_mem_mapInsert hx with rfl | hx'
        · exact h2
        · exact hh x hx'
      · have he : k = kh := eq_of_not_lexLt (by simpa using h1) (by simpa using h2)
        subst he
        rw [if_neg h2]
        exact List.pairwise_cons.mpr ⟨fun x hx => hh x hx, ht⟩

theorem setInsert_sorted {p : Bytes} :
    ∀ {ss}, SetSorted ss → SetSorted (setInsert p ss)
  | [], _ => by simp [setInsert, SetSorted]
  | r :: rest, hs => by
    have hh := (List.pairwise_cons.mp hs).1
    have ht := (List.pairwise_cons.mp hs).2
    simp only [setInsert]
    by_cases h1 : lexLt p r = true
    · rw [if_pos h1]
      refine List.pairwise_cons.mpr ⟨?_, hs⟩
      intro x hx
      rcases List.mem_cons.mp hx with rfl | hx'
      · exact h1
      · exact lexLt_trans h1 (hh x hx')
    · rw [if_neg h1]
      by_cases h2 : lexLt r p = true
      · rw [if_pos h2]
        refine List.pairwise_cons.mpr ⟨?_, setInsert_sorted ht⟩
        intro x hx
        rcases (mem_setInsert x p rest).mp hx with rfl | hx'
        · exact h2
        · exact hh x hx'
      · have he : r = p := eq_of_not_lexLt (by simpa using h2) (by simpa using h1)
        subst he
        rw [if_neg h2]
        exact hs

theorem simplifyStep_sorted {m ss} (op : WriteOperation)
    (hm : MapSorted m) (hs : SetSorted ss) :
    MapSorted (simplifyStep (m, ss) op).1 ∧ SetSorted (simplifyStep (m, ss) op).2 := by
  cases op with
  | Delete k => exact ⟨mapInsert_sorted hm, hs⟩
  | Put k v => exact ⟨mapInsert_sorted hm, hs⟩
  | DeletePrefix p =>
    refine ⟨?_, setInsert_sorted ?_⟩
    · exact List.Pairwise.sublist (List.filter_sublist m) hm
    · exact List.Pairwise.sublist (List.filter_sublist ss) hs

theorem simplifyLoop_sorted : ∀ (ops : List WriteOperation) {m ss},
    MapSorted m → SetSorted ss →
    MapSorted (simplifyLoop ops (m, ss)).1 ∧ SetSorted (simplifyLoop ops (m, ss)).2
  | [], _, _, hm, hs => ⟨hm, hs⟩
  | op :: rest, m, ss, hm, hs => by
    have hstep := simplifyStep_sorted op hm hs
    simp only [simplifyLoop]
    exact simplifyLoop_sorted rest hstep.1 hstep.2

theorem mapSorted_distinct {m} (hm : MapSorted m) :
    m.Pairwise fun a b => a.1 ≠ b.1 :=
  hm.imp fun h => ne_of_lexLt h

/-- C2: applying the operations of `simplify b` in their emitted order has
the same effect on every prior store state as applying the operations of
`b` in append order, where `Put` sets a key, `Delete` removes it and
`DeletePrefix` removes every key under the prefix. -/
theorem simplify_equiv (b : Batch) (hb : BatchValid b) (s : StoreState) :
    applyOps (Batch.simplify b).operations s = applyOps b.operations s := by
  have hsort := @simplifyLoop_sorted b.operations [] []
    (by simp [MapSorted]) (by simp [SetSorted])
  have hdist := mapSorted_distinct hsort.1
  have h1 := emit_sem (simplifyLoop b.operations ([], [])) hdist s
  have h2 := simplifyLoop_sem b.operations [] [] hb
    (by intro kv h; simp at h) (by intro r h; simp at h) s
  rw [base_store] at h2
  show applyOps (emitOps (simplifyLoop b.operations ([], []))) s
    = applyOps b.operations s
  rw [h1, h2]

/-- Witness for C2 on a concrete batch and the empty store. -/
theorem simplify_equiv_witness :
    applyOps (Batch.simplify
        ⟨[.Put [1] [7], .DeletePrefix [1], .Put [1, 2] [9]]⟩).operations
        (fun _ => none)
      = applyOps [.Put [1] [7], .DeletePrefix [1], .Put [1, 2] [9]] (fun _ => none) :=
  simplify_equiv ⟨[.Put [1] [7], .DeletePrefix [1], .Put [1, 2] [9]]⟩
    (by decide) (fun _ => none)

theorem opKey_toOp (kv : Bytes × Option Bytes) : opKey (toOp kv) = kv.1 := by
  obtain ⟨k, v⟩ := kv
  cases v <;> rfl

/-- C4: in a simplified batch, every `DeletePrefix` precedes every
`Put`/`Delete`; the `DeletePrefix` prefixes are in strictly ascending
lexicographic order, the `Put`/`Delete` keys are in strictly ascending
lexicographic order, and hence each exact key appears in at most one
`Put` or `Delete`. -/
theorem simplify_shape (b : Batch) :
    ∃ dps kvs, (Batch.simplify b).operations = dps ++ kvs
      ∧ (∀ op ∈ dps, ∃ p, op = WriteOperation.DeletePrefix p)
      ∧ (∀ op ∈ kvs, ∀ p, op ≠ WriteOperation.DeletePrefix p)
      ∧ dps.Pairwise (fun o o' => lexLt (opKey o) (opKey o') = true)
      ∧ kvs.Pairwise (fun o o' => lexLt (opKey o) (opKey o') = true)
      ∧ kvs.Pairwise (fun o o' => opKey o ≠ opKey o') := by
  have hsort := @simplifyLoop_sorted b.operations [] []
    (by simp [MapSorted]) (by simp [SetSorted])
  refine ⟨(simplifyLoop b.operations ([], [])).2.map
      (fun p => WriteOperation.DeletePrefix p),
    (simplifyLoop b.operations ([], [])).1.map toOp, rfl, ?_, ?_, ?_, ?_, ?_⟩
  · intro op hop
    obtain ⟨p, _, rfl⟩ := List.mem_map.mp hop
    exact ⟨p, rfl⟩
  · intro op hop p
    obtain ⟨kv, _, rfl⟩ := List.mem_map.mp hop
    obtain ⟨k, v⟩ := kv
    cases v <;> simp [toOp]
  · exact List.pairwise_map.mpr hsort.2
  · refine List.pairwise_map.mpr (hsort.1.imp ?_)
    intro a b h
    rw [opKey_toOp, opKey_toOp]
    exact h
  · refine List.pairwise_map.mpr (hsort.1.imp ?_)
    intro a b h
    rw [opKey_toOp, opKey_toOp]
    exact ne_of_lexLt h

theorem simplifyLoop_append (l1 l2 : List WriteOperation) :
    ∀ st, simplifyLoop (l1 ++ l2) st = simplifyLoop l2 (simplifyLoop l1 st) := by
  induction l1 with
  | nil => intro st; rfl
  | cons op rest ih =>
    intro st
    simp only [List.cons_append, simplifyLoop]
    exact ih _

theorem setInsert_append {p : Bytes} :
    ∀ {acc : List Bytes}, (∀ q ∈ acc, lexLt q p = true) → setInsert p acc = acc ++ [p]
  | [], _ => rfl
  | r :: rest, h => by
    have hr := h r (List.mem_cons_self _ _)
    simp only [setInsert]
    rw [if_neg (by simp [lexLt_asymm hr]), if_pos hr,
      setInsert_append (fun q hq => h q (List.mem_cons_of_mem _ hq))]
    rfl

theorem setRemoveRange_all_lt {p : Bytes} {acc : List Bytes}
    (h : ∀ q ∈ acc, lexLt q p = true) : setRemoveRange p acc = acc := by
  rw [setRemoveRange, List.filter_eq_self]
  intro q hq
  simp [inInterval, get_interval, bound_sat_lower, h q hq]

theorem mapInsert_append {k : Bytes} {v : Option Bytes} :
    ∀ {acc : List (Bytes × Option Bytes)}, (∀ a ∈ acc, lexLt a.1 k = true) →
      mapInsert k v acc = acc ++ [(k, v)]
  | [], _ => rfl
  | (kh, vh) :: rest, h => by
    have hr := h (kh, vh) (List.mem_cons_self _ _)
    simp only [mapInsert]
    rw [if_neg (by simp [lexLt_asymm hr]), if_pos hr,
      mapInsert_append (fun a ha => h a (List.mem_cons_of_mem _ ha))]
    rfl

theorem dp_phase : ∀ (S acc : List Bytes),
    (∀ q ∈ acc, ∀ r ∈ S, lexLt q r = true) → SetSorted S →
    simplifyLoop (S.map fun p => WriteOperation.DeletePrefix p) ([], acc)
      = ([], acc ++ S)
  | [], acc, _, _ => by simp [simplifyLoop]
  | p :: rest, acc, hlt, hs => by
    have hstep : simplifyStep ([], acc) (.DeletePrefix p) = ([], acc ++ [p]) := by
      simp only [simplifyStep]
      rw [setRemoveRange_all_lt (fun q hq => hlt q hq p (List.mem_cons_self _ _)),
        setInsert_append (fun q hq => hlt q hq p (List.mem_cons_self _ _))]
      rfl
    simp only [List.map_cons, simplifyLoop, hstep]
    have ih := dp_phase rest (acc ++ [p])
      (by
        intro q hq r hr
        rcases List.mem_append.mp hq with hq' | hq'
        · exact hlt q hq' r (List.mem_cons_of_mem _ hr)
        · rw [List.mem_singleton.mp hq']
          exact (List.pairwise_cons.mp hs).1 r hr)
      (List.pairwise_cons.mp hs).2
    rw [ih, List.append_assoc]
    rfl

theorem pd_phase : ∀ (M acc : List (Bytes × Option Bytes)) (S : List Bytes),
    (∀ a ∈ acc, ∀ x ∈ M, lexLt a.1 x.1 = true) → MapSorted M →
    simplifyLoop (M.map toOp) (acc, S) = (acc ++ M, S)
  | [], acc, S, _, _ => by simp [simplifyLoop]
  | (k, eff) :: rest, acc, S, hlt, hm => by
    have hstep : simplifyStep (acc, S) (toOp (k, eff)) = (acc ++ [(k, eff)], S) := by
      cases eff with
      | none =>
        simp only [toOp, simplifyStep]
        rw [mapInsert_append (fun a ha => hlt a ha (k, none) (List.mem_cons_self _ _))]
      | some v =>
        simp only [toOp, simplifyStep]
        rw [mapInsert_append (fun a ha => hlt a ha (k, some v) (List.mem_cons_self _ _))]
    simp only [List.map_cons, simplifyLoop, hstep]
    have ih := pd_phase rest (acc ++ [(k, eff)]) S
      (by
        intro a ha x hx
        rcases List.mem_append.mp ha with ha' | ha'
        · exact hlt a ha' x (List.mem_cons_of_mem _ hx)
        · rw [List.mem_singleton.mp ha']
          exact (List.pairwise_cons.mp hm).1 x hx)
      (List.pairwise_cons.mp hm).2
    rw [ih, List.append_assoc]
    rfl

theorem simplify_emit (M : List (Bytes × Option Bytes)) (S : List Bytes)
    (hm : MapSorted M) (hs : SetSorted S) :
    Batch.simplify ⟨emitOps (M, S)⟩ = ⟨emitOps (M, S)⟩ := by
  simp only [Batch.simplify]
  have hloop : simplifyLoop (emitOps (M, S)) ([], []) = (M, S) := by
    rw [emitOps, simplifyLoop_append,
      dp_phase S [] (by intro q hq; simp at hq) hs, List.nil_append,
      pd_phase M [] S (by intro a ha; simp at ha) hm, List.nil_append]
  rw [hloop]

/-- C3: `simplify` is idempotent — simplifying an already simplified batch
yields the same operation sequence. -/
theorem simplify_idem (b : Batch) :
    Batch.simplify (Batch.simplify b) = Batch.simplify b := by
  have hsort := @simplifyLoop_sorted b.operations [] []
    (by simp [MapSorted]) (by simp [SetSorted])
  have hrw : Batch.simplify b = ⟨emitOps (simplifyLoop b.operations ([], []))⟩ := rfl
  rw [hrw]
  generalize hg : simplifyLoop b.operations ([], []) = st at hsort ⊢
  obtain ⟨M, S⟩ := st
  exact simplify_emit M S hsort.1 hsort.2

/-- C5 counterexample: appending `DeletePrefix [1, 2]` after
`DeletePrefix [1]` leaves both in the simplified batch, although `[1]`
subsumes `[1, 2]`: the surviving prefixes are not mutually non-redundant
and the emitted operation count is not minimal (the first operation alone
has the same effect). -/
theorem simplify_redundant_counterexample :
    (Batch.simplify ⟨[.DeletePrefix [1], .DeletePrefix [1, 2]]⟩).operations
      = [.DeletePrefix [1], .DeletePrefix [1, 2]]
    ∧ ([1] : Bytes) <+: [1, 2] ∧ ([1] : Bytes) ≠ [1, 2] := by
  decide

theorem filterMap_dpSel_set : ∀ S : List Bytes,
    List.filterMap dpSel (S.map fun p => WriteOperation.DeletePrefix p) = S
  | [] => rfl
  | p :: rest => by simp [dpSel, filterMap_dpSel_set rest]

theorem filterMap_dpSel_map : ∀ M : List (Bytes × Option Bytes),
    List.filterMap dpSel (M.map toOp) = []
  | [] => rfl
  | (k, eff) :: rest => by
    cases eff <;> simp [toOp, dpSel, filterMap_dpSel_map rest]

theorem dpPrefixes_simplify (b : Batch) :
    dpPrefixes (Batch.simplify b) = (simplifyLoop b.operations ([], [])).2 := by
  show List.filterMap dpSel (emitOps (simplifyLoop b.operations ([], []))) = _
  generalize simplifyLoop b.operations ([], []) = st
  obtain ⟨M, S⟩ := st
  rw [emitOps, List.filterMap_append, filterMap_dpSel_set, filterMap_dpSel_map,
    List.append_nil]

/-- C5 amended: the surviving `DeletePrefix` prefixes of a simplified batch
are pairwise distinct, and a `DeletePrefix p` absorbs every prefix stored
before it that lies in its interval: after appending `DeletePrefix p`, the
only surviving prefix extending `p` is `p` itself.  A surviving prefix may
still subsume one appended later, and the operation count is not minimal. -/
theorem simplify_dp_absorb (b : Batch) (p : Bytes) :
    List.Pairwise (fun q r => q ≠ r) (dpPrefixes (Batch.simplify b))
    ∧ (∀ q ∈ dpPrefixes (Batch.simplify ⟨b.operations ++ [.DeletePrefix p]⟩),
        p <+: q → q = p) := by
  constructor
  · rw [dpPrefixes_simplify]
    have hsort := @simplifyLoop_sorted b.operations [] []
      (by simp [MapSorted]) (by simp [SetSorted])
    exact hsort.2.imp fun h => ne_of_lexLt h
  · intro q hq hpq
    rw [dpPrefixes_simplify] at hq
    simp only [simplifyLoop_append, simplifyLoop] at hq
    generalize hg : simplifyLoop b.operations ([], []) = st at hq
    obtain ⟨M, S⟩ := st
    simp only [simplifyStep] at hq
    rcases (mem_setInsert q p _).mp hq with rfl | hq'
    · rfl
    · exfalso
      have hfil := List.mem_filter.mp hq'
      have hin : inInterval (get_interval p) q = true := inInterval_of_isPrefix hpq
      have hc := hfil.2
      rw [hin] at hc
      simp at hc

/-- Witness for the amended C5: with `b = [DeletePrefix [1, 2]]` and
`p = [1]`, the prefix `[1]` is the only survivor extending `[1]`. -/
theorem simplify_dp_absorb_witness :
    List.Pairwise (fun q r => q ≠ r)
      (dpPrefixes (Batch.simplify ⟨[.DeletePrefix [1, 2]]⟩))
    ∧ ([1] : Bytes) = [1] :=
  ⟨(simplify_dp_absorb ⟨[.DeletePrefix [1, 2]]⟩ [1]).1,
    (simplify_dp_absorb ⟨[.DeletePrefix [1, 2]]⟩ [1]).2 [1] (by decide) (by decide)⟩

/-- C6: a `Put` staged before a `DeletePrefix` covering its key is absorbed
by it, while a `Put` staged after such a `DeletePrefix` survives and is
emitted after the prefix delete. -/
theorem simplify_put_dp (k v p : Bytes) (h : p <+: k) :
    (Batch.simplify ⟨[.Put k v, .DeletePrefix p]⟩).operations = [.DeletePrefix p]
    ∧ (Batch.simplify ⟨[.DeletePrefix p, .Put k v]⟩).operations
        = [.DeletePrefix p, .Put k v] := by
  have hin : inInterval (get_interval p) k = true := inInterval_of_isPrefix h
  constructor
  · show emitOps (simplifyLoop [.Put k v, .DeletePrefix p] ([], [])) = _
    simp only [simplifyLoop, simplifyStep]
    simp [mapInsert, mapRemoveRange, setRemoveRange, setInsert, hin, emitOps]
  · show emitOps (simplifyLoop [.DeletePrefix p, .Put k v] ([], [])) = _
    simp only [simplifyLoop, simplifyStep]
    simp [mapInsert, mapRemoveRange, setRemoveRange, setInsert, emitOps, toOp]

/-- Witness for C6 at `k = [1, 2]`, `v = []`, `p = [1]`. -/
theorem simplify_put_dp_witness :
    (Batch.simplify ⟨[.Put [1, 2] [], .DeletePrefix [1]]⟩).operations
      = [.DeletePrefix [1]]
    ∧ (Batch.simplify ⟨[.DeletePrefix [1], .Put [1, 2] []]⟩).operations
        = [.DeletePrefix [1], .Put [1, 2] []] :=
  simplify_put_dp [1, 2] [] [1] (by decide)

/-- C7: every pass-through I/O operation of `ContextFromDb` delegates to the
backend with its key, prefix or batch argument unchanged — the backend
receives exactly the caller's argument, with no `base_key` prepended,
whatever the context's `base_key` is. -/
theorem context_pass_through {E Err Item : Type} (db : KeyValueOperations Err)
    (bk : Bytes) (ex : E) (deser : Bytes → Except Err Item) (key p : Bytes)
    (batch : Batch) :
    ContextFromDb.read_key ⟨db, bk, ex⟩ deser key
        = KeyValueOperations.read_key db deser key
    ∧ ContextFromDb.read_key_bytes ⟨db, bk, ex⟩ key = db.read_key_bytes key
    ∧ ContextFromDb.find_keys_by_prefix ⟨db, bk, ex⟩ p = db.find_keys_by_prefix p
    ∧ ContextFromDb.find_key_values_by_prefix ⟨db, bk, ex⟩ p
        = db.find_key_values_by_prefix p
    ∧ ContextFromDb.write_batch ⟨db, bk, ex⟩ batch = db.write_batch batch := by
  refine ⟨rfl, rfl, rfl, rfl, ?_⟩
  show (match db.write_batch batch with
    | .error e => Except.error e
    | .ok _ => Except.ok ()) = db.write_batch batch
  cases db.write_batch batch with
  | error e => rfl
  | ok u => cases u; rfl

/-- C8: `derive_key` on an index encoding to zero bytes aborts with a failed
assertion (not a recoverable error); on a non-empty encoding it returns
`Ok (base_key ++ encoding)`, which is strictly longer than `base_key`. -/
theorem derive_key_spec {E Err : Type} (c : ContextFromDb E Err)
    (hbk : c.base_key ≠ []) (enc : Bytes) :
    (enc = [] → ContextFromDb.derive_key c (.ok enc) = .panicked)
    ∧ (enc ≠ [] → ContextFromDb.derive_key c (.ok enc) = .ok (c.base_key ++ enc)
        ∧ c.base_key.length < (c.base_key ++ enc).length) := by
  constructor
  · rintro rfl
    simp [ContextFromDb.derive_key]
  · intro hne
    have hlen : c.base_key.length < (c.base_key ++ enc).length := by
      rw [List.length_append]
      have : 0 < enc.length := List.length_pos.mpr hne
      omega
    exact ⟨by simp [ContextFromDb.derive_key, hlen, hne], hlen⟩

/-- Witness for C8 on a concrete context with `base_key = [1]`. -/
theorem derive_key_spec_witness :
    ContextFromDb.derive_key (⟨trivialDb, [1], ()⟩ : ContextFromDb Unit Unit)
        (.ok []) = .panicked
    ∧ ContextFromDb.derive_key (⟨trivialDb, [1], ()⟩ : ContextFromDb Unit Unit)
        (.ok [2]) = .ok [1, 2] :=
  ⟨(derive_key_spec (⟨trivialDb, [1], ()⟩ : ContextFromDb Unit Unit)
      (by simp) []).1 rfl,
    ((derive_key_spec (⟨trivialDb, [1], ()⟩ : ContextFromDb Unit Unit)
      (by simp) [2]).2 (by simp)).1⟩

/-- C9: `base_tag_index` is `base_key ++ [tag] ++ index` and `base_tag` is
`base_key ++ [tag]`; in particular with `base_key = [1]`, tag `5` and index
`[0xAB]` the derived key is `[1, 5, 0xAB]`. -/
theorem base_tag_index_spec {E Err : Type} (c : ContextFromDb E Err)
    (tag : Nat) (index : Bytes) :
    ContextFromDb.base_tag_index c tag index = c.base_key ++ [tag] ++ index
    ∧ ContextFromDb.base_tag c tag = c.base_key ++ [tag]
    ∧ ContextFromDb.base_tag_index
        (⟨trivialDb, [1], ()⟩ : ContextFromDb Unit Unit) 5 [0xAB]
        = [1, 5, 0xAB] :=
  ⟨rfl, rfl, rfl⟩

/-- C10: `derive_tag_key` performs no emptiness assertion, and for every
successfully serialized index (even one encoding to zero bytes) it returns
`Ok (base_key ++ [tag] ++ encoding)`, whose length is at least
`base_key`'s length plus one, so it can never alias the base key. -/
theorem derive_tag_key_spec {E Err : Type} (c : ContextFromDb E Err)
    (tag : Nat) (enc : Bytes) :
    ContextFromDb.derive_tag_key c tag (.ok enc)
        = .ok (c.base_key ++ [tag] ++ enc)
    ∧ c.base_key.length + 1 ≤ (c.base_key ++ [tag] ++ enc).length
    ∧ c.base_key ++ [tag] ++ enc ≠ c.base_key := by
  refine ⟨rfl, ?_, ?_⟩
  · simp only [List.append_assoc, List.length_append, List.length_cons,
      List.length_nil]
    omega
  · intro he
    have hlen := congrArg List.length he
    simp only [List.append_assoc, List.length_append, List.length_cons,
      List.length_nil] at hlen
    omega

end LineraViews
